import Mathlib

/-!
Verification of the CRAAM generic robust-MDP container (`GRMDP` in
`include/RMDP.hpp`).  The container itself (state table, transition-matrix
builders, occupancy solver, reward aggregator, policy validator) is embedded
from the source; the state/outcome collaborators (`State.hpp`,
`Transition.hpp`) and the dense linear solve (boost `lu_factorize` /
`lu_substitute`) are not part of the sources and are modelled from the
specification, as indicated on each definition.

Floating-point `prec_t` is modelled by exact rationals, machine `long` ids by
`ℤ` (with `ℕ` where the source guarantees non-negativity), and `assert` /
undefined resolution by `Option` (with `none` for the failure).
-/

namespace Craam

/-- Sparse transition distribution: parallel lists of target state ids,
probabilities and rewards.  Modelled from the spec: `Transition.hpp` is not
among the sources; the spec describes an outcome as "parallel collections of
(targetStateId, probability, reward)". -/
structure Transition where
  indices : List ℕ
  probabilities : List ℚ
  rewards : List ℚ
deriving DecidableEq

/-- Number of sparse entries of the distribution (`Transition::size`). -/
def Transition.size (t : Transition) : ℕ := t.indices.length

/-- Modelled from the spec: "Normalized" holds for an outcome iff its
probability entries sum to 1 (`Transition::is_normalized`). -/
def Transition.is_normalized (t : Transition) : Bool :=
  decide (t.probabilities.sum = 1)

/-- Modelled from the spec: `normalize()` rescales the outcome's
probabilities to sum to 1 (division by the total weight). -/
def Transition.normalize (t : Transition) : Transition :=
  { t with probabilities := t.probabilities.map (fun p => p / t.probabilities.sum) }

/-- Modelled from the spec: resolved expected immediate reward of a
distribution (probability-weighted sum of rewards). -/
def Transition.mean_reward (t : Transition) : ℚ :=
  ((t.probabilities.zip t.rewards).map (fun pr => pr.1 * pr.2)).sum

/-- The dense row the matrix builders write for one resolved distribution:
start from the zero row and assign `row[indices[j]] := probabilities[j]` in
list order, exactly as the fill loops of `GRMDP::transition_mat` and
`GRMDP::transition_mat_t` do (assignment, not accumulation). -/
def Transition.fillRow (t : Transition) : ℕ → ℚ :=
  (t.indices.zip t.probabilities).foldl
    (fun r ip => fun j => if j = ip.1 then ip.2 else r j) (fun _ => 0)

/-- Dense length-n expansion of the sparse distribution
(`Transition::probabilities_vector`; modelled from the spec: the initial
distribution is "expanded to a dense length-n vector"). -/
def Transition.probabilities_vector (t : Transition) (n : ℕ) : List ℚ :=
  (List.range n).map t.fillRow

/-- Probability attached to the last listed occurrence of target `j` in the
sparse distribution, or 0 when `j` is not listed. -/
def Transition.last_prob (t : Transition) (j : ℕ) : ℚ :=
  (((t.indices.zip t.probabilities).reverse.find? (fun ip => ip.1 == j)).map Prod.snd).getD 0

/-- An action owns a list of outcomes (one per member of nature's uncertainty
set; exactly one for a plain action).  Modelled from the spec's collaborator
contract. -/
structure Action where
  outcomes : List Transition
deriving DecidableEq

/-- Outcome list accessor (`get_outcomes`). -/
def Action.get_outcomes (a : Action) : List Transition := a.outcomes

/-- A state owns a list of actions.  Modelled from the spec's collaborator
contract (`State.hpp` is not among the sources); this one shape subsumes both
the plain and the adversarial variant. -/
structure State where
  actions : List Action
deriving DecidableEq

/-- Number of actions of the state (`action_count`). -/
def State.action_count (s : State) : ℕ := s.actions.length

/-- Action list accessor (`get_actions`). -/
def State.get_actions (s : State) : List Action := s.actions

/-- A state is terminal iff it owns zero actions (`is_terminal`). -/
def State.is_terminal (s : State) : Bool := s.actions.isEmpty

/-- Modelled from the spec: a policy pair entry is valid for a state iff the
chosen ActionId indexes an existing action of the state and the chosen
OutcomeId indexes an existing outcome of that action
(`is_action_outcome_correct`).  Ids are machine `long`s, so negative values
are possible and invalid. -/
def State.is_action_outcome_correct (s : State) (a o : ℤ) : Bool :=
  decide (0 ≤ a ∧ a.toNat < s.actions.length ∧ 0 ≤ o ∧
    o.toNat < (s.actions.getD a.toNat ⟨[]⟩).outcomes.length)

/-- Modelled from the spec: resolve-mean-transition for a chosen
action+outcome pair; resolution with invalid indices is undefined (`none`),
hence resolving a terminal state (zero actions) is always undefined. -/
def State.mean_transition (s : State) (a o : ℤ) : Option Transition :=
  if 0 ≤ a ∧ a.toNat < s.actions.length then
    if 0 ≤ o ∧ o.toNat < (s.actions.getD a.toNat ⟨[]⟩).outcomes.length then
      some ((s.actions.getD a.toNat ⟨[]⟩).outcomes.getD o.toNat ⟨[], [], []⟩)
    else none
  else none

/-- Modelled from the spec: resolve-mean-reward for a chosen action+outcome
pair; undefined for invalid indices. -/
def State.mean_reward (s : State) (a o : ℤ) : Option ℚ :=
  (s.mean_transition a o).map Transition.mean_reward

/-- Modelled from the spec: state-level normalize rescales every outcome of
every action. -/
def State.normalize (s : State) : State :=
  ⟨s.actions.map (fun a => ⟨a.outcomes.map Transition.normalize⟩)⟩

/-- The generic decision-process container `GRMDP<SType>`: an id-indexed list
of states. -/
structure GRMDP where
  states : List State
deriving DecidableEq

/-- Number of states (`GRMDP::state_count`). -/
def GRMDP.state_count (m : GRMDP) : ℕ := m.states.length

/-- `GRMDP::create_state(stateid)`: `assert(stateid >= 0)` (hence the `ℕ`
argument); if `stateid` is not below the current size the state vector is
resized to `stateid + 1`, gap slots being filled with default-constructed
(terminal, zero-action) states. -/
def GRMDP.create_state (m : GRMDP) (stateid : ℕ) : GRMDP :=
  if stateid < m.states.length then m
  else ⟨m.states ++ List.replicate (stateid + 1 - m.states.length) ⟨[]⟩⟩

/-- `GRMDP::get_state(stateid)`: the `assert(stateid >= 0 &&
size_t(stateid) < state_count())` precondition is modelled by `none` on
violation; in range, the state stored at position `stateid` is returned. -/
def GRMDP.get_state (m : GRMDP) (stateid : ℤ) : Option State :=
  if 0 ≤ stateid ∧ stateid.toNat < m.states.length then
    some (m.states.getD stateid.toNat ⟨[]⟩)
  else none

/-- `GRMDP::is_normalized`: sweeps every state, action and outcome and checks
each distribution (early exit on the first failure, as in the source). -/
def GRMDP.is_normalized (m : GRMDP) : Bool :=
  m.states.all fun s => s.actions.all fun a => a.outcomes.all fun t => t.is_normalized

/-- `GRMDP::normalize`: normalizes every state. -/
def GRMDP.normalize (m : GRMDP) : GRMDP :=
  ⟨m.states.map State.normalize⟩

/-- The loop body of `GRMDP::is_policy_correct`: scan the state list in
ascending id order (id = offset `i`), skip terminal states, and return the
first id whose (action, outcome) pair is invalid, else `-1`. -/
def findIncorrectFrom (pol natp : ℕ → ℤ) : List State → ℕ → ℤ
  | [], _ => -1
  | s :: rest, i =>
    if s.is_terminal then findIncorrectFrom pol natp rest (i + 1)
    else if s.is_action_outcome_correct (pol i) (natp i) then
      findIncorrectFrom pol natp rest (i + 1)
    else (i : ℤ)

/-- `GRMDP::is_policy_correct(policy, natpolicy)`. -/
def GRMDP.is_policy_correct (m : GRMDP) (pol natp : ℕ → ℤ) : ℤ :=
  findIncorrectFrom pol natp m.states 0

/-- The distribution resolved for state `s` under the policy pair: the body
of the row loops of `GRMDP::transition_mat`, `GRMDP::transition_mat_t`,
`GRMDP::rewards_state`. -/
def GRMDP.row_result (m : GRMDP) (pol natp : ℕ → ℤ) (s : ℕ) : Option Transition :=
  (m.states.getD s ⟨[]⟩).mean_transition (pol s) (natp s)

/-- The all-zero default used to read entries out of an optional matrix. -/
def zeroMat : ℕ → ℕ → ℚ := fun _ _ => 0

/-- `GRMDP::transition_mat(policy, nature)`: a dense n×n matrix; the loop
resolves `mean_transition(policy[s], nature[s])` for every state `s` (with no
terminal-state check) and writes row `s` by assignment.  A failed resolution
(assertion/undefined behaviour in the C++) makes the whole build undefined,
modelled by `none`. -/
def GRMDP.transition_mat (m : GRMDP) (pol natp : ℕ → ℤ) : Option (ℕ → ℕ → ℚ) :=
  if h : ∀ s, s < m.state_count → (m.row_result pol natp s).isSome = true then
    some (fun s j =>
      if hs : s < m.state_count then ((m.row_result pol natp s).get (h s hs)).fillRow j
      else 0)
  else none

/-- `GRMDP::transition_mat_t(policy, nature)`: the transposed orientation;
the loop explicitly skips terminal states ("just go with zero
probabilities") and writes column `s` by assignment. -/
def GRMDP.transition_mat_t (m : GRMDP) (pol natp : ℕ → ℤ) : Option (ℕ → ℕ → ℚ) :=
  if h : ∀ s, s < m.state_count → (m.states.getD s ⟨[]⟩).is_terminal ≠ true →
      (m.row_result pol natp s).isSome = true then
    some (fun i s =>
      if hs : s < m.state_count then
        if ht : (m.states.getD s ⟨[]⟩).is_terminal = true then 0
        else ((m.row_result pol natp s).get (h s hs ht)).fillRow i
      else 0)
  else none

/-- `GRMDP::rewards_state(policy, nature)`: per-state expected immediate
reward; 0 for terminal states, resolved `mean_reward` otherwise; any failed
resolution makes the sweep undefined (`none`). -/
def GRMDP.rewards_state (m : GRMDP) (pol natp : ℕ → ℤ) : Option (List ℚ) :=
  if h : ∀ s, s < m.state_count → (m.states.getD s ⟨[]⟩).is_terminal = true ∨
      ((m.states.getD s ⟨[]⟩).mean_reward (pol s) (natp s)).isSome = true then
    some ((List.range m.state_count).map (fun s =>
      if (m.states.getD s ⟨[]⟩).is_terminal = true then 0
      else ((m.states.getD s ⟨[]⟩).mean_reward (pol s) (natp s)).getD 0))
  else none

/-- Row interchange on a matrix viewed as a function of the row index. -/
def rowSwap (A : ℕ → ℕ → ℚ) (r1 r2 : ℕ) : ℕ → ℕ → ℚ :=
  fun i j => if i = r1 then A r2 j else if i = r2 then A r1 j else A i j

/-- Entry interchange on a right-hand-side vector. -/
def vecSwap (b : ℕ → ℚ) (r1 r2 : ℕ) : ℕ → ℚ :=
  fun i => if i = r1 then b r2 else if i = r2 then b r1 else b i

/-- Scale row `r` by `c`. -/
def rowScale (A : ℕ → ℕ → ℚ) (r : ℕ) (c : ℚ) : ℕ → ℕ → ℚ :=
  fun i j => if i = r then c * A i j else A i j

/-- Scale entry `r` by `c`. -/
def vecScale (b : ℕ → ℚ) (r : ℕ) (c : ℚ) : ℕ → ℚ :=
  fun i => if i = r then c * b i else b i

/-- Subtract `c` times row `k` from row `i`. -/
def rowElim (A : ℕ → ℕ → ℚ) (i k : ℕ) (c : ℚ) : ℕ → ℕ → ℚ :=
  fun i2 j => if i2 = i then A i j - c * A k j else A i2 j

/-- Subtract `c` times entry `k` from entry `i`. -/
def vecElim (b : ℕ → ℚ) (i k : ℕ) (c : ℚ) : ℕ → ℚ :=
  fun i2 => if i2 = i then b i - c * b k else b i2

/-- Eliminate column `k` from every row other than `k`. -/
def elimOthers (n k : ℕ) (A : ℕ → ℕ → ℚ) (b : ℕ → ℚ) : (ℕ → ℕ → ℚ) × (ℕ → ℚ) :=
  (List.range n).foldl
    (fun p i => if i = k then p else (rowElim p.1 i k (p.1 i k), vecElim p.2 i k (p.1 i k)))
    (A, b)

/-- First row `r` in `[start, start + fuel)` with a nonzero entry in column
`col` (the pivot search). -/
def findPivot (A : ℕ → ℕ → ℚ) (col : ℕ) : ℕ → ℕ → Option ℕ
  | _, 0 => none
  | r, fuel + 1 => if A r col ≠ 0 then some r else findPivot A col (r + 1) fuel

/-- One pivoting round at column `k`: swap the pivot row up, rescale the
pivot to 1, eliminate the column from all other rows. -/
def pivotStep (n k : ℕ) (A : ℕ → ℕ → ℚ) (b : ℕ → ℚ) (r : ℕ) : (ℕ → ℕ → ℚ) × (ℕ → ℚ) :=
  elimOthers n k
    (rowScale (rowSwap A k r) k ((rowSwap A k r) k k)⁻¹)
    (vecScale (vecSwap b k r) k ((rowSwap A k r) k k)⁻¹)

/-- The main elimination loop over pivot columns `k`, with `fuel`
remaining columns. -/
def elimLoop (n : ℕ) : ℕ → ℕ → (ℕ → ℕ → ℚ) → (ℕ → ℚ) → Option ((ℕ → ℕ → ℚ) × (ℕ → ℚ))
  | 0, _, A, b => some (A, b)
  | fuel + 1, k, A, b =>
    match findPivot A k k (n - k) with
    | none => none
    | some r => elimLoop n fuel (k + 1) (pivotStep n k A b r).1 (pivotStep n k A b r).2

/-- The n×n identity matrix as a function. -/
def idMat : ℕ → ℕ → ℚ := fun i j => if i = j then 1 else 0

/-- Modelled from the spec: the direct linear solve with pivoting (boost
`lu_factorize`/`lu_substitute` are external): Gauss-Jordan elimination with
row pivoting over exact rationals; `none` when a pivot column is all zero
(singular system). -/
def gaussSolve (n : ℕ) (A : ℕ → ℕ → ℚ) (b : ℕ → ℚ) : Option (ℕ → ℚ) :=
  match elimLoop n n 0 A b with
  | none => none
  | some p => if (∀ i, i < n → ∀ j, j < n → p.1 i j = idMat i j) then some p.2 else none

/-- `GRMDP::ofreq_mat(init, discount, policy, nature)`: expand the initial
distribution to a dense vector, build the transposed transition matrix, form
`I - discount * Pᵗ` and solve the linear system. -/
def GRMDP.ofreq_mat (m : GRMDP) (init : Transition) (discount : ℚ)
    (pol natp : ℕ → ℤ) : Option (List ℚ) :=
  match m.transition_mat_t pol natp with
  | none => none
  | some tmat =>
    match gaussSolve m.state_count
        (fun i j => (if i = j then 1 else 0) - discount * tmat i j)
        (fun i => (init.probabilities_vector m.state_count).getD i 0) with
    | none => none
    | some x => some ((List.range m.state_count).map x)

/-- The solution predicate for the n×n linear system `A · x = b`. -/
def SolMat (n : ℕ) (A : ℕ → ℕ → ℚ) (b : ℕ → ℚ) (x : ℕ → ℚ) : Prop :=
  ∀ i, i < n → (Finset.range n).sum (fun j => A i j * x j) = b i

/-- A policy pair is correct for the table: every non-terminal state accepts
its (action, outcome) pair (the validity invariant of the spec). -/
def GRMDP.correct_pair (m : GRMDP) (pol natp : ℕ → ℤ) : Prop :=
  ∀ s, s < m.state_count → (m.states.getD s ⟨[]⟩).is_terminal = false →
    (m.states.getD s ⟨[]⟩).is_action_outcome_correct (pol s) (natp s) = true

/-- A state passes the validator's scan: it is terminal (skipped) or accepts
its (action, outcome) pair. -/
def stateOk (st : State) (a o : ℤ) : Prop :=
  st.is_terminal = true ∨ st.is_action_outcome_correct a o = true

instance (st : State) (a o : ℤ) : Decidable (stateOk st a o) := by
  unfold stateOk; infer_instance

instance (m : GRMDP) (pol natp : ℕ → ℤ) : Decidable (m.correct_pair pol natp) := by
  unfold GRMDP.correct_pair; infer_instance

/-- The all-zero policy, used for concrete instances. -/
def zpol : ℕ → ℤ := fun _ => 0

/-- Concrete instance: a one-state table whose state has one action with one
outcome, a self-loop with probability 1 and reward 1. -/
def mOne : GRMDP := ⟨[⟨[⟨[⟨[0], [1], [1]⟩]⟩]⟩]⟩

/-- Concrete instance: a one-state table whose only state is terminal. -/
def mTerm : GRMDP := ⟨[⟨[]⟩]⟩

/-- Concrete instance: a two-state table; state 0 loops to itself with
probability 1 and reward 0, state 1 is terminal. -/
def mTermMix : GRMDP := ⟨[⟨[⟨[⟨[0], [1], [0]⟩]⟩]⟩, ⟨[]⟩]⟩

/-- Concrete instance: a two-state table; state 0 is terminal, state 1 loops
to itself with probability 1 and reward 7. -/
def mMix : GRMDP := ⟨[⟨[]⟩, ⟨[⟨[⟨[1], [1], [7]⟩]⟩]⟩]⟩

/-- Concrete instance: a one-state table whose resolved distribution lists
target 0 twice, with probabilities 1 and then 2 (probabilities need not sum
to one in this model). -/
def mDup : GRMDP := ⟨[⟨[⟨[⟨[0, 0], [1, 2], [0, 0]⟩]⟩]⟩]⟩

/-- Concrete instance: a two-state table with no terminal state; state 0
moves to state 1 and state 1 moves to state 0, each with probability 1. -/
def mChain : GRMDP := ⟨[⟨[⟨[⟨[1], [1], [0]⟩]⟩]⟩, ⟨[⟨[⟨[0], [1], [0]⟩]⟩]⟩]⟩

/-- Concrete instance: the three-state model of the mainpage example (spec
P6): action 0 carries (s0→s1 p=1 r=0), (s1→s1 p=1 r=1), (s2→s1 p=1 r=1) and
action 1 carries (s0→s1 p=1 r=0), (s1→s2 p=1 r=0), (s2→s2 p=1 r=11/10). -/
def mP6 : GRMDP :=
  ⟨[⟨[⟨[⟨[1], [1], [0]⟩]⟩, ⟨[⟨[1], [1], [0]⟩]⟩]⟩,
    ⟨[⟨[⟨[1], [1], [1]⟩]⟩, ⟨[⟨[2], [1], [0]⟩]⟩]⟩,
    ⟨[⟨[⟨[1], [1], [1]⟩]⟩, ⟨[⟨[2], [1], [11/10]⟩]⟩]⟩]⟩

/-- The policy [5, 0, 0] of spec P6: action id 5 at state 0, action 0
elsewhere. -/
def pol5 : ℕ → ℤ := fun s => if s = 0 then 5 else 0

/-- Concrete instance: a dirac initial distribution on state 0. -/
def initDirac : Transition := ⟨[0], [1], [0]⟩

/-- C7 (claim): `create_state` never shrinks the table: the new state count
is the maximum of the previous count and id+1, previously existing states
are unchanged, newly created slots (including gap slots) are default
terminal zero-action states, and position id is valid in the new table. -/
theorem create_state_grows_c7 (m : GRMDP) (stateid : ℕ) :
    (m.create_state stateid).state_count = max m.state_count (stateid + 1)
    ∧ (∀ i, i < m.state_count →
        (m.create_state stateid).states.getD i ⟨[]⟩ = m.states.getD i ⟨[]⟩)
    ∧ (∀ i, m.state_count ≤ i → i < (m.create_state stateid).state_count →
        (m.create_state stateid).states.getD i ⟨[]⟩ = ⟨[]⟩
        ∧ ((m.create_state stateid).states.getD i ⟨[]⟩).is_terminal = true
        ∧ ((m.create_state stateid).states.getD i ⟨[]⟩).action_count = 0)
    ∧ stateid < (m.create_state stateid).state_count := by
  unfold GRMDP.create_state GRMDP.state_count
  by_cases h : stateid < m.states.length
  · rw [if_pos h]
    refine ⟨by omega, fun i _ => rfl, fun i h1 h2 => absurd h2 (by omega), h⟩
  · rw [if_neg h]
    have hlen : (m.states ++ List.replicate (stateid + 1 - m.states.length)
        (⟨[]⟩ : State)).length = stateid + 1 := by
      rw [List.length_append, List.length_replicate]; omega
    refine ⟨?_, ?_, ?_, ?_⟩
    · rw [hlen]; omega
    · intro i hi
      exact List.getD_append _ _ _ _ hi
    · intro i h1 h2
      have hget : (m.states ++ List.replicate (stateid + 1 - m.states.length)
          (⟨[]⟩ : State)).getD i ⟨[]⟩ = (⟨[]⟩ : State) := by
        rw [List.getD_append_right _ _ _ _ h1]
        simp [List.getD]
      exact ⟨hget, by rw [hget]; rfl, by rw [hget]; rfl⟩
    · rw [hlen]; omega

/-- Witness for C7 at a concrete table and id. -/
theorem create_state_grows_c7_witness :
    (mOne.create_state 3).state_count = max mOne.state_count 4
    ∧ (mOne.create_state 3).states.getD 0 ⟨[]⟩ = mOne.states.getD 0 ⟨[]⟩
    ∧ (mOne.create_state 3).states.getD 2 ⟨[]⟩ = ⟨[]⟩
    ∧ 3 < (mOne.create_state 3).state_count := by
  obtain ⟨h1, h2, h3, h4⟩ := create_state_grows_c7 mOne 3
  exact ⟨h1, h2 0 (by decide), (h3 2 (by decide) (by decide)).1, h4⟩

/-- C8 (claim): `get_state` fails its checked precondition exactly on a
negative id or an id not below the state count, and otherwise returns the
state stored at position id. -/
theorem get_state_checked_c8 (m : GRMDP) (stateid : ℤ) :
    (m.get_state stateid = none ↔ stateid < 0 ∨ (m.state_count : ℤ) ≤ stateid)
    ∧ (0 ≤ stateid → stateid < (m.state_count : ℤ) →
        m.get_state stateid = some (m.states.getD stateid.toNat ⟨[]⟩)) := by
  unfold GRMDP.get_state GRMDP.state_count
  constructor
  · constructor
    · intro hnone
      by_contra hcon
      rw [if_pos (by omega)] at hnone
      exact Option.some_ne_none _ hnone
    · intro hout
      rw [if_neg (by omega)]
  · intro h1 h2
    rw [if_pos (by omega)]

/-- Witness for C8 at a concrete table: id 5 is out of range, id 0 is in
range. -/
theorem get_state_checked_c8_witness :
    mOne.get_state 5 = none ∧ mOne.get_state 0 = some (mOne.states.getD 0 ⟨[]⟩) := by
  refine ⟨(get_state_checked_c8 mOne 5).1.mpr (Or.inr (by decide)),
    (get_state_checked_c8 mOne 0).2 (by decide) (by decide)⟩

/-- Unfolding: a list head that passes the scan is skipped. -/
theorem findIncorrectFrom_cons_ok (pol natp : ℕ → ℤ) (s : State) (rest : List State)
    (i : ℕ) (hok : stateOk s (pol i) (natp i)) :
    findIncorrectFrom pol natp (s :: rest) i = findIncorrectFrom pol natp rest (i + 1) := by
  rcases hok with ht | hc
  · simp [findIncorrectFrom, ht]
  · by_cases ht : s.is_terminal = true <;> simp [findIncorrectFrom, ht, hc]

/-- Unfolding: a list head that fails the scan is returned immediately. -/
theorem findIncorrectFrom_cons_bad (pol natp : ℕ → ℤ) (s : State) (rest : List State)
    (i : ℕ) (hbad : ¬ stateOk s (pol i) (natp i)) :
    findIncorrectFrom pol natp (s :: rest) i = (i : ℤ) := by
  rw [stateOk, not_or] at hbad
  simp [findIncorrectFrom, Bool.not_eq_true _ ▸ hbad.1, Bool.not_eq_true _ ▸ hbad.2]

/-- The validator scan, characterized over an arbitrary suffix of the state
list starting at offset `i`. -/
theorem findIncorrectFrom_spec (pol natp : ℕ → ℤ) (l : List State) :
    ∀ i : ℕ,
      (findIncorrectFrom pol natp l i = -1 ↔
        ∀ k, k < l.length → stateOk (l.getD k ⟨[]⟩) (pol (i + k)) (natp (i + k)))
      ∧ (∀ k, k < l.length →
          ¬ stateOk (l.getD k ⟨[]⟩) (pol (i + k)) (natp (i + k)) →
          (∀ t, t < k → stateOk (l.getD t ⟨[]⟩) (pol (i + t)) (natp (i + t))) →
          findIncorrectFrom pol natp l i = ((i + k : ℕ) : ℤ)) := by
  induction l with
  | nil =>
    intro i
    constructor
    · simp [findIncorrectFrom]
    · intro k hk
      simp at hk
  | cons s rest ih =>
    intro i
    by_cases hok : stateOk s (pol i) (natp i)
    · constructor
      · rw [findIncorrectFrom_cons_ok pol natp s rest i hok, (ih (i + 1)).1]
        constructor
        · intro H k hk
          match k with
          | 0 => simpa using hok
          | k + 1 =>
            have heq : i + (k + 1) = i + 1 + k := by omega
            have := H k (by simpa using hk)
            rw [heq]
            simpa using this
        · intro H k hk
          have heq : i + 1 + k = i + (k + 1) := by omega
          have := H (k + 1) (by simpa using hk)
          rw [heq]
          simpa using this
      · intro k hk hbad hprev
        match k with
        | 0 => exact absurd (by simpa using hok) (by simpa using hbad)
        | k + 1 =>
          rw [findIncorrectFrom_cons_ok pol natp s rest i hok]
          have heq : i + 1 + k = i + (k + 1) := by omega
          have hres := (ih (i + 1)).2 k (by simpa using hk)
            (by rw [heq]; simpa using hbad)
            (by
              intro t ht
              have heqt : i + 1 + t = i + (t + 1) := by omega
              have := hprev (t + 1) (by omega)
              rw [heqt]
              simpa using this)
          rw [hres, heq]
    · constructor
      · rw [findIncorrectFrom_cons_bad pol natp s rest i hok]
        constructor
        · intro habs
          exfalso
          omega
        · intro H
          exact absurd (by simpa using H 0 (by simp)) hok
      · intro k hk hbad hprev
        match k with
        | 0 =>
          rw [findIncorrectFrom_cons_bad pol natp s rest i hok]
          norm_num
        | k + 1 =>
          exact absurd (by simpa using hprev 0 (by omega)) hok

/-- C6 (claim): `is_policy_correct` scans states in ascending id order,
skipping terminal states; it returns the smallest non-terminal state id whose
(action, outcome) pair is invalid, and the sentinel -1 when every
non-terminal state passes. -/
theorem is_policy_correct_c6 (m : GRMDP) (pol natp : ℕ → ℤ) :
    (m.is_policy_correct pol natp = -1 ↔
      ∀ s, s < m.state_count → stateOk (m.states.getD s ⟨[]⟩) (pol s) (natp s))
    ∧ (∀ s, s < m.state_count →
        ¬ stateOk (m.states.getD s ⟨[]⟩) (pol s) (natp s) →
        (∀ t, t < s → stateOk (m.states.getD t ⟨[]⟩) (pol t) (natp t)) →
        m.is_policy_correct pol natp = (s : ℤ)) := by
  have H := findIncorrectFrom_spec pol natp m.states 0
  constructor
  · rw [GRMDP.is_policy_correct, H.1]
    constructor
    · intro h s hs
      simpa using h s hs
    · intro h k hk
      simpa using h k hk
  · intro s hs hbad hprev
    have := H.2 s hs (by simpa using hbad) (by intro t ht; simpa using hprev t ht)
    rw [GRMDP.is_policy_correct, this]
    simp

/-- Witness for C6 on the spec's P6 example: the all-zero policy pair is
fully valid (sentinel -1), while policy [5,0,0] fails first at state 0. -/
theorem is_policy_correct_c6_witness :
    mP6.is_policy_correct zpol zpol = -1 ∧ mP6.is_policy_correct pol5 zpol = 0 := by
  refine ⟨(is_policy_correct_c6 mP6 zpol zpol).1.mpr (by decide), ?_⟩
  have := (is_policy_correct_c6 mP6 pol5 zpol).2 0 (by decide) (by decide)
    (fun t ht => absurd ht (by omega))
  simpa using this

/-- Distributing a division over a list sum. -/
theorem list_sum_map_div (l : List ℚ) (c : ℚ) :
    (l.map (fun p => p / c)).sum = l.sum / c := by
  induction l with
  | nil => simp
  | cons a t ih => simp [ih, add_div]

/-- After rescaling, an outcome with nonzero total weight sums to 1. -/
theorem Transition.normalize_sum (t : Transition) (h : t.probabilities.sum ≠ 0) :
    t.normalize.probabilities.sum = 1 := by
  unfold Transition.normalize
  simp [list_sum_map_div, div_self h]

/-- Rescaling an outcome with nonzero total weight is idempotent. -/
theorem Transition.normalize_idem (t : Transition) (h : t.probabilities.sum ≠ 0) :
    t.normalize.normalize = t.normalize := by
  have hs : t.normalize.probabilities.sum = 1 := Transition.normalize_sum t h
  rcases htn : t.normalize with ⟨i, p, r⟩
  rw [htn] at hs
  unfold Transition.normalize
  simp only at hs ⊢
  rw [hs]
  simp

/-- State-level normalization is idempotent when every owned outcome has
nonzero total weight. -/
theorem State.normalize_idem_actions (s : State)
    (h : ∀ a ∈ s.actions, ∀ t ∈ a.outcomes, t.probabilities.sum ≠ 0) :
    s.normalize.normalize = s.normalize := by
  unfold State.normalize
  congr 1
  simp only [List.map_map]
  apply List.map_congr_left
  intro a ha
  simp only [Function.comp]
  congr 1
  simp only [List.map_map]
  apply List.map_congr_left
  intro t htm
  exact Transition.normalize_idem t (h a ha t htm)

/-- C9 (claim): on a table in which every outcome has nonzero total weight,
`normalize` is idempotent, and `is_normalized` returns true immediately after
`normalize` runs. -/
theorem normalize_c9 (m : GRMDP)
    (h : ∀ s ∈ m.states, ∀ a ∈ s.actions, ∀ t ∈ a.outcomes, t.probabilities.sum ≠ 0) :
    m.normalize.normalize = m.normalize ∧ m.normalize.is_normalized = true := by
  constructor
  · unfold GRMDP.normalize
    congr 1
    simp only [List.map_map]
    apply List.map_congr_left
    intro s hs
    simp only [Function.comp]
    exact State.normalize_idem_actions s (h s hs)
  · unfold GRMDP.is_normalized GRMDP.normalize
    rw [List.all_eq_true]
    intro s hs
    rw [List.mem_map] at hs
    obtain ⟨s0, hs0, rfl⟩ := hs
    unfold State.normalize
    rw [List.all_eq_true]
    intro a ha
    simp only at ha
    rw [List.mem_map] at ha
    obtain ⟨a0, ha0, rfl⟩ := ha
    rw [List.all_eq_true]
    intro t ht
    simp only at ht
    rw [List.mem_map] at ht
    obtain ⟨t0, ht0, rfl⟩ := ht
    unfold Transition.is_normalized
    simp [Transition.normalize_sum t0 (h s0 hs0 a0 ha0 t0 ht0)]

/-- Witness for C9 on the P6 example table (every outcome there has total
weight 1). -/
theorem normalize_c9_witness :
    mP6.normalize.normalize = mP6.normalize ∧ mP6.normalize.is_normalized = true :=
  normalize_c9 mP6 (by norm_num [mP6, List.forall_mem_cons])

/-- Resolving a terminal state is undefined: zero actions means no valid
action index. -/
theorem State.mean_transition_terminal (s : State) (hterm : s.is_terminal = true)
    (a o : ℤ) : s.mean_transition a o = none := by
  unfold State.is_terminal at hterm
  rw [List.isEmpty_iff] at hterm
  unfold State.mean_transition
  rw [hterm, if_neg (by simp)]

/-- A successful forward build means every state resolved. -/
theorem transition_mat_isSome (m : GRMDP) (pol natp : ℕ → ℤ)
    (h : (m.transition_mat pol natp).isSome = true) :
    ∀ s, s < m.state_count → (m.row_result pol natp s).isSome = true := by
  unfold GRMDP.transition_mat at h
  split at h
  · assumption
  · simp at h

/-- A successful transposed build means every non-terminal state resolved. -/
theorem transition_mat_t_isSome (m : GRMDP) (pol natp : ℕ → ℤ)
    (h : (m.transition_mat_t pol natp).isSome = true) :
    ∀ s, s < m.state_count → (m.states.getD s ⟨[]⟩).is_terminal ≠ true →
      (m.row_result pol natp s).isSome = true := by
  unfold GRMDP.transition_mat_t at h
  split at h
  · assumption
  · simp at h

/-- A successful forward build rules out terminal states. -/
theorem transition_mat_no_terminal (m : GRMDP) (pol natp : ℕ → ℤ)
    (h : (m.transition_mat pol natp).isSome = true)
    (s : ℕ) (hs : s < m.state_count) :
    (m.states.getD s ⟨[]⟩).is_terminal = false := by
  have hrow := transition_mat_isSome m pol natp h s hs
  cases hb : (m.states.getD s ⟨[]⟩).is_terminal with
  | false => rfl
  | true =>
    rw [GRMDP.row_result, State.mean_transition_terminal _ hb] at hrow
    simp at hrow

/-- Entry of the forward matrix at a resolved row. -/
theorem transition_mat_getD_some (m : GRMDP) (pol natp : ℕ → ℤ)
    (hall : ∀ s, s < m.state_count → (m.row_result pol natp s).isSome = true)
    (s : ℕ) (hs : s < m.state_count) (t : Transition)
    (hres : m.row_result pol natp s = some t) (j : ℕ) :
    (m.transition_mat pol natp).getD zeroMat s j = t.fillRow j := by
  unfold GRMDP.transition_mat
  rw [dif_pos hall]
  simp only [Option.getD_some]
  rw [dif_pos hs]
  simp only [hres, Option.get_some]

/-- Rows of the forward matrix outside the state range are zero. -/
theorem transition_mat_getD_ge (m : GRMDP) (pol natp : ℕ → ℤ)
    (hall : ∀ s, s < m.state_count → (m.row_result pol natp s).isSome = true)
    (s : ℕ) (hs : ¬ s < m.state_count) (j : ℕ) :
    (m.transition_mat pol natp).getD zeroMat s j = 0 := by
  unfold GRMDP.transition_mat
  rw [dif_pos hall]
  simp only [Option.getD_some]
  rw [dif_neg hs]

/-- Entry of the transposed matrix in a resolved (non-terminal) column. -/
theorem transition_mat_t_getD_some (m : GRMDP) (pol natp : ℕ → ℤ)
    (hall : ∀ s, s < m.state_count → (m.states.getD s ⟨[]⟩).is_terminal ≠ true →
      (m.row_result pol natp s).isSome = true)
    (s : ℕ) (hs : s < m.state_count) (t : Transition)
    (hres : m.row_result pol natp s = some t) (i : ℕ) :
    (m.transition_mat_t pol natp).getD zeroMat i s = t.fillRow i := by
  have hterm : (m.states.getD s ⟨[]⟩).is_terminal ≠ true := by
    intro htt
    rw [GRMDP.row_result, State.mean_transition_terminal _ htt] at hres
    exact Option.noConfusion hres
  unfold GRMDP.transition_mat_t
  rw [dif_pos hall]
  simp only [Option.getD_some]
  rw [dif_pos hs, dif_neg hterm]
  simp only [hres, Option.get_some]

/-- Terminal states yield an all-zero column in the transposed matrix. -/
theorem transition_mat_t_getD_terminal (m : GRMDP) (pol natp : ℕ → ℤ)
    (hall : ∀ s, s < m.state_count → (m.states.getD s ⟨[]⟩).is_terminal ≠ true →
      (m.row_result pol natp s).isSome = true)
    (s : ℕ) (hs : s < m.state_count)
    (hterm : (m.states.getD s ⟨[]⟩).is_terminal = true) (i : ℕ) :
    (m.transition_mat_t pol natp).getD zeroMat i s = 0 := by
  unfold GRMDP.transition_mat_t
  rw [dif_pos hall]
  simp only [Option.getD_some]
  rw [dif_pos hs, dif_pos hterm]

/-- Columns of the transposed matrix outside the state range are zero. -/
theorem transition_mat_t_getD_ge (m : GRMDP) (pol natp : ℕ → ℤ)
    (hall : ∀ s, s < m.state_count → (m.states.getD s ⟨[]⟩).is_terminal ≠ true →
      (m.row_result pol natp s).isSome = true)
    (s : ℕ) (hs : ¬ s < m.state_count) (i : ℕ) :
    (m.transition_mat_t pol natp).getD zeroMat i s = 0 := by
  unfold GRMDP.transition_mat_t
  rw [dif_pos hall]
  simp only [Option.getD_some]
  rw [dif_neg hs]

/-- C1 (claim): whenever both builders are defined, the transposed matrix is
the exact transpose of the forward matrix: entry (s', s) of the transposed
matrix equals entry (s, s') of the forward matrix. -/
theorem transition_mat_transpose_c1 (m : GRMDP) (pol natp : ℕ → ℤ)
    (hf : (m.transition_mat pol natp).isSome = true)
    (ht : (m.transition_mat_t pol natp).isSome = true) (a b : ℕ) :
    (m.transition_mat_t pol natp).getD zeroMat a b
      = (m.transition_mat pol natp).getD zeroMat b a := by
  have hallf := transition_mat_isSome m pol natp hf
  have hallt := transition_mat_t_isSome m pol natp ht
  by_cases hb : b < m.state_count
  · obtain ⟨t, ht2⟩ := Option.isSome_iff_exists.mp (hallf b hb)
    rw [transition_mat_t_getD_some m pol natp hallt b hb t ht2 a,
      transition_mat_getD_some m pol natp hallf b hb t ht2 a]
  · rw [transition_mat_t_getD_ge m pol natp hallt b hb a,
      transition_mat_getD_ge m pol natp hallf b hb a]

/-- Witness for C1 on the two-state chain (both builders defined there). -/
theorem transition_mat_transpose_c1_witness :
    (mChain.transition_mat zpol zpol).isSome = true
    ∧ (mChain.transition_mat_t zpol zpol).isSome = true
    ∧ (mChain.transition_mat_t zpol zpol).getD zeroMat 0 1
        = (mChain.transition_mat zpol zpol).getD zeroMat 1 0 :=
  ⟨by decide, by decide,
    transition_mat_transpose_c1 mChain zpol zpol (by decide) (by decide) 0 1⟩

/-- C2 counterexample: on the one-terminal-state table with the (correct)
all-zero policy pair, the forward builder resolves the terminal state,
which fails; no matrix (and hence no all-zero terminal row) is produced. -/
theorem forward_terminal_c2_counterexample :
    mTerm.transition_mat zpol zpol = none
    ∧ mTerm.is_policy_correct zpol zpol = -1 := by
  constructor
  · unfold GRMDP.transition_mat
    rw [dif_neg (by decide)]
  · decide

/-- C2 amended: a table containing a terminal state never yields a forward
matrix, because the forward builder (unlike the transposed one) resolves
transitions on every state including terminal ones; the transposed builder
special-cases terminal states, giving them all-zero columns. -/
theorem forward_terminal_c2_amended (m : GRMDP) (pol natp : ℕ → ℤ) (s : ℕ)
    (hs : s < m.state_count)
    (hterm : (m.states.getD s ⟨[]⟩).is_terminal = true) :
    m.transition_mat pol natp = none
    ∧ ((m.transition_mat_t pol natp).isSome = true →
        ∀ i, (m.transition_mat_t pol natp).getD zeroMat i s = 0) := by
  constructor
  · unfold GRMDP.transition_mat
    rw [dif_neg]
    intro hall
    have h0 := hall s hs
    rw [GRMDP.row_result, State.mean_transition_terminal _ hterm] at h0
    simp at h0
  · intro ht i
    exact transition_mat_t_getD_terminal m pol natp
      (transition_mat_t_isSome m pol natp ht) s hs hterm i

/-- Witness for the amended C2 on the one-terminal-state table. -/
theorem forward_terminal_c2_amended_witness :
    mTerm.transition_mat zpol zpol = none
    ∧ (mTerm.transition_mat_t zpol zpol).getD zeroMat 0 0 = 0 := by
  obtain ⟨h1, h2⟩ := forward_terminal_c2_amended mTerm zpol zpol 0 (by decide) (by decide)
  exact ⟨h1, h2 (by decide) 0⟩

/-- The assignment fold evaluates, at each point, to the last written value
for that point (or the initial value when the point is never written). -/
theorem foldl_write_last (j : ℕ) (l : List (ℕ × ℚ)) :
    ∀ r0 : ℕ → ℚ,
      (l.foldl (fun r ip => fun j2 => if j2 = ip.1 then ip.2 else r j2) r0) j
        = ((l.reverse.find? (fun ip => ip.1 == j)).map Prod.snd).getD (r0 j) := by
  induction l with
  | nil => intro r0; simp
  | cons a tl ih =>
    intro r0
    rw [List.foldl_cons, ih, List.reverse_cons, List.find?_append]
    cases hfind : tl.reverse.find? (fun ip => ip.1 == j) with
    | some v => rfl
    | none =>
      simp only [Option.or]
      by_cases hj : a.1 = j
      · rw [List.find?_cons_of_pos _ (by simpa using hj)]
        simp [hj]
      · rw [List.find?_cons_of_neg _ (by simpa using hj), List.find?_nil]
        simp [Ne.symm hj]

/-- The dense row the builders write agrees with the last listed occurrence
of each target. -/
theorem fillRow_eq_last_prob (t : Transition) (j : ℕ) :
    t.fillRow j = t.last_prob j := by
  unfold Transition.fillRow Transition.last_prob
  rw [foldl_write_last]

/-- C10 (claim): both builders write matrix entries by assignment, so an
entry equals the probability of the last listed occurrence of its target in
the resolved distribution, not the sum over all occurrences. -/
theorem duplicate_target_last_write_c10 (m : GRMDP) (pol natp : ℕ → ℤ)
    (hf : (m.transition_mat pol natp).isSome = true)
    (ht : (m.transition_mat_t pol natp).isSome = true)
    (s : ℕ) (hs : s < m.state_count) (t : Transition)
    (hres : m.row_result pol natp s = some t) (j : ℕ) :
    (m.transition_mat pol natp).getD zeroMat s j = t.last_prob j
    ∧ (m.transition_mat_t pol natp).getD zeroMat j s = t.last_prob j := by
  constructor
  · rw [transition_mat_getD_some m pol natp (transition_mat_isSome m pol natp hf)
      s hs t hres j, fillRow_eq_last_prob]
  · rw [transition_mat_t_getD_some m pol natp (transition_mat_t_isSome m pol natp ht)
      s hs t hres j, fillRow_eq_last_prob]

/-- Witness for C10 on the duplicate-target table: the written entry is the
probability 2 of the last listed occurrence (the sum of occurrences is 3). -/
theorem duplicate_target_last_write_c10_witness :
    (mDup.transition_mat zpol zpol).isSome = true
    ∧ mDup.row_result zpol zpol 0 = some ⟨[0, 0], [1, 2], [0, 0]⟩
    ∧ (mDup.transition_mat zpol zpol).getD zeroMat 0 0
        = (⟨[0, 0], [1, 2], [0, 0]⟩ : Transition).last_prob 0
    ∧ (⟨[0, 0], [1, 2], [0, 0]⟩ : Transition).last_prob 0 = 2 := by
  refine ⟨by decide, by decide, ?_, by decide⟩
  exact (duplicate_target_last_write_c10 mDup zpol zpol (by decide) (by decide)
    0 (by decide) _ (by decide) 0).1

/-- Summing the assignment fold over a range: with pairwise distinct written
points inside the range, starting from zeros at the written points, the
written values are added to the initial sum. -/
theorem foldl_write_sum (n : ℕ) (l : List (ℕ × ℚ)) :
    ∀ r0 : ℕ → ℚ, (l.map Prod.fst).Nodup → (∀ p ∈ l, p.1 < n) →
      (∀ p ∈ l, r0 p.1 = 0) →
      (Finset.range n).sum
          (l.foldl (fun r ip => fun j2 => if j2 = ip.1 then ip.2 else r j2) r0)
        = (Finset.range n).sum r0 + (l.map Prod.snd).sum := by
  induction l with
  | nil => intro r0 _ _ _; simp
  | cons a tl ih =>
    intro r0 hnodup hlt hzero
    rw [List.foldl_cons]
    have hupd : (fun j2 => if j2 = a.1 then a.2 else r0 j2) = Function.update r0 a.1 a.2 := by
      funext j2
      rw [Function.update_apply]
    have hmem : a.1 ∈ Finset.range n := Finset.mem_range.mpr (hlt a (List.mem_cons_self a tl))
    have hnotin : a.1 ∉ tl.map Prod.fst := (List.nodup_cons.mp (by simpa using hnodup)).1
    have hnodup2 : (tl.map Prod.fst).Nodup := (List.nodup_cons.mp (by simpa using hnodup)).2
    have hlt2 : ∀ p ∈ tl, p.1 < n := fun p hp => hlt p (List.mem_cons_of_mem a hp)
    have hzero1 : ∀ p ∈ tl, (Function.update r0 a.1 a.2) p.1 = 0 := by
      intro p hp
      rw [Function.update_apply, if_neg, ]
      · exact hzero p (List.mem_cons_of_mem a hp)
      · intro he
        exact hnotin (he ▸ List.mem_map_of_mem Prod.fst hp)
    rw [hupd, ih (Function.update r0 a.1 a.2) hnodup2 hlt2 hzero1,
      Finset.sum_update_of_mem hmem]
    have hr0 : r0 a.1 = 0 := hzero a (List.mem_cons_self a tl)
    have hsplit : (Finset.range n).sum r0 = ((Finset.range n) \ {a.1}).sum r0 := by
      rw [Finset.sum_eq_sum_diff_singleton_add hmem r0, hr0, add_zero]
    rw [hsplit, List.map_cons, List.sum_cons]
    ring

/-- Summing the dense row over the state range gives the distribution's
total probability mass, provided targets are distinct and in range. -/
theorem fillRow_sum (n : ℕ) (t : Transition)
    (hlen : t.probabilities.length = t.indices.length)
    (hnodup : t.indices.Nodup) (hrange : ∀ i ∈ t.indices, i < n) :
    (Finset.range n).sum t.fillRow = t.probabilities.sum := by
  unfold Transition.fillRow
  have hfst : (t.indices.zip t.probabilities).map Prod.fst = t.indices :=
    List.map_fst_zip _ _ (by omega)
  have hsnd : (t.indices.zip t.probabilities).map Prod.snd = t.probabilities :=
    List.map_snd_zip _ _ (by omega)
  rw [foldl_write_sum n _ _ (by rw [hfst]; exact hnodup)
    (fun p hp => hrange p.1 (by rw [← hfst]; exact List.mem_map_of_mem Prod.fst hp))
    (fun p _ => rfl)]
  simp [hsnd]

/-- C4 counterexample: (a) on a table with a terminal state and a correct
policy pair, no forward matrix (and hence no all-zero terminal row) is
produced; (b) with a duplicated target, the row sum is the last-written
probability 2 and not the distribution's total mass 3. -/
theorem row_sum_c4_counterexample :
    (mTermMix.transition_mat zpol zpol = none
      ∧ mTermMix.is_policy_correct zpol zpol = -1)
    ∧ ((mDup.transition_mat zpol zpol).isSome = true
      ∧ (Finset.range mDup.state_count).sum
          (fun j => (mDup.transition_mat zpol zpol).getD zeroMat 0 j)
        ≠ ((mDup.row_result zpol zpol 0).getD ⟨[], [], []⟩).probabilities.sum) := by
  refine ⟨⟨?_, by decide⟩, by decide, ?_⟩
  · unfold GRMDP.transition_mat
    rw [dif_neg (by decide)]
  · have hn : mDup.state_count = 1 := by decide
    rw [hn, Finset.sum_range_one]
    have h1 : (mDup.transition_mat zpol zpol).getD zeroMat 0 0 = 2 := by decide
    have h2 : (mDup.row_result zpol zpol 0).getD ⟨[], [], []⟩
        = ⟨[0, 0], [1, 2], [0, 0]⟩ := by decide
    rw [h1, h2]
    show (2 : ℚ) ≠ ([1, 2] : List ℚ).sum
    rw [List.sum_cons, List.sum_cons, List.sum_nil]
    norm_num

/-- C4 amended: for every successfully built forward matrix, each row `s`
sums to the total probability mass of the resolved distribution of `s`,
provided the distribution lists distinct in-range targets (a success rules
out terminal states, so no all-zero terminal rows occur). -/
theorem row_sum_c4_amended (m : GRMDP) (pol natp : ℕ → ℤ)
    (hf : (m.transition_mat pol natp).isSome = true)
    (s : ℕ) (hs : s < m.state_count) (t : Transition)
    (hres : m.row_result pol natp s = some t)
    (hlen : t.probabilities.length = t.indices.length)
    (hnodup : t.indices.Nodup)
    (hrange : ∀ i ∈ t.indices, i < m.state_count) :
    (Finset.range m.state_count).sum
        (fun j => (m.transition_mat pol natp).getD zeroMat s j)
      = t.probabilities.sum := by
  have hall := transition_mat_isSome m pol natp hf
  have hfun : (fun j => (m.transition_mat pol natp).getD zeroMat s j) = t.fillRow := by
    funext j
    exact transition_mat_getD_some m pol natp hall s hs t hres j
  rw [hfun]
  exact fillRow_sum m.state_count t hlen hnodup hrange

/-- Witness for the amended C4 on the two-state chain. -/
theorem row_sum_c4_amended_witness :
    (mChain.transition_mat zpol zpol).isSome = true
    ∧ (Finset.range mChain.state_count).sum
        (fun j => (mChain.transition_mat zpol zpol).getD zeroMat 0 j)
      = (⟨[1], [1], [0]⟩ : Transition).probabilities.sum :=
  ⟨by decide, row_sum_c4_amended mChain zpol zpol (by decide) 0 (by decide)
    _ (by decide) (by decide) (by decide) (by decide)⟩

/-- A validated (action, outcome) pair always resolves. -/
theorem State.mean_transition_isSome_of_correct (st : State) (a o : ℤ)
    (h : st.is_action_outcome_correct a o = true) :
    (st.mean_transition a o).isSome = true := by
  unfold State.is_action_outcome_correct at h
  rw [decide_eq_true_eq] at h
  obtain ⟨h1, h2, h3, h4⟩ := h
  unfold State.mean_transition
  rw [if_pos ⟨h1, h2⟩, if_pos ⟨h3, h4⟩]
  rfl

/-- Reading a mapped range list inside its bounds. -/
theorem list_getD_map_range {α : Type} (n : ℕ) (f : ℕ → α) (s : ℕ) (hs : s < n) (d : α) :
    ((List.range n).map f).getD s d = f s := by
  rw [List.getD_eq_getElem _ d (by simpa using hs)]
  simp

/-- C5 (claim): for a correct policy pair, `rewards_state` returns a
length-n vector whose entry `s` is 0 for terminal `s` and the resolved
expected immediate reward `mean_reward(policy[s], nature[s])` otherwise. -/
theorem rewards_state_c5 (m : GRMDP) (pol natp : ℕ → ℤ)
    (hc : m.correct_pair pol natp) :
    (m.rewards_state pol natp).isSome = true
    ∧ ((m.rewards_state pol natp).getD []).length = m.state_count
    ∧ ∀ s, s < m.state_count →
        (((m.states.getD s ⟨[]⟩).is_terminal = true →
          ((m.rewards_state pol natp).getD []).getD s 0 = 0)
        ∧ ((m.states.getD s ⟨[]⟩).is_terminal = false →
          some (((m.rewards_state pol natp).getD []).getD s 0)
            = (m.states.getD s ⟨[]⟩).mean_reward (pol s) (natp s))) := by
  have hcond : ∀ s, s < m.state_count → (m.states.getD s ⟨[]⟩).is_terminal = true ∨
      ((m.states.getD s ⟨[]⟩).mean_reward (pol s) (natp s)).isSome = true := by
    intro s hs
    cases hb : (m.states.getD s ⟨[]⟩).is_terminal with
    | true => exact Or.inl rfl
    | false =>
      refine Or.inr ?_
      unfold State.mean_reward
      obtain ⟨t, ht2⟩ := Option.isSome_iff_exists.mp
        (State.mean_transition_isSome_of_correct _ _ _ (hc s hs hb))
      rw [ht2]
      rfl
  unfold GRMDP.rewards_state
  rw [dif_pos hcond]
  refine ⟨rfl, by simp, ?_⟩
  intro s hs
  rw [Option.getD_some, list_getD_map_range m.state_count _ s hs 0]
  constructor
  · intro hterm
    rw [if_pos hterm]
  · intro hterm
    rw [if_neg (by rw [hterm]; exact Bool.false_ne_true)]
    rcases hcond s hs with hcon | hsome
    · rw [hcon] at hterm
      exact Bool.noConfusion hterm
    · obtain ⟨r, hr⟩ := Option.isSome_iff_exists.mp hsome
      rw [hr, Option.getD_some]

/-- Witness for C5 on the mixed table: the terminal state 0 gets reward 0
and the sweep succeeds. -/
theorem rewards_state_c5_witness :
    (mMix.rewards_state zpol zpol).isSome = true
    ∧ ((mMix.rewards_state zpol zpol).getD []).getD 0 0 = 0 := by
  obtain ⟨h1, _, h3⟩ := rewards_state_c5 mMix zpol zpol (by decide)
  exact ⟨h1, (h3 0 (by decide)).1 (by decide)⟩

/-- First row of a swap. -/
theorem rowSwap_fst (A : ℕ → ℕ → ℚ) (r1 r2 j : ℕ) : rowSwap A r1 r2 r1 j = A r2 j := by
  unfold rowSwap
  rw [if_pos rfl]

/-- Second row of a swap. -/
theorem rowSwap_snd (A : ℕ → ℕ → ℚ) (r1 r2 j : ℕ) : rowSwap A r1 r2 r2 j = A r1 j := by
  unfold rowSwap
  by_cases h : r2 = r1
  · rw [if_pos h, h]
  · rw [if_neg h, if_pos rfl]

/-- Unswapped rows of a swap. -/
theorem rowSwap_other (A : ℕ → ℕ → ℚ) (r1 r2 i j : ℕ) (h1 : i ≠ r1) (h2 : i ≠ r2) :
    rowSwap A r1 r2 i j = A i j := by
  unfold rowSwap
  rw [if_neg h1, if_neg h2]

/-- First entry of a vector swap. -/
theorem vecSwap_fst (b : ℕ → ℚ) (r1 r2 : ℕ) : vecSwap b r1 r2 r1 = b r2 := by
  unfold vecSwap
  rw [if_pos rfl]

/-- Second entry of a vector swap. -/
theorem vecSwap_snd (b : ℕ → ℚ) (r1 r2 : ℕ) : vecSwap b r1 r2 r2 = b r1 := by
  unfold vecSwap
  by_cases h : r2 = r1
  · rw [if_pos h, h]
  · rw [if_neg h, if_pos rfl]

/-- Unswapped entries of a vector swap. -/
theorem vecSwap_other (b : ℕ → ℚ) (r1 r2 i : ℕ) (h1 : i ≠ r1) (h2 : i ≠ r2) :
    vecSwap b r1 r2 i = b i := by
  unfold vecSwap
  rw [if_neg h1, if_neg h2]

/-- A row interchange preserves the solution set of the system. -/
theorem solMat_rowSwap (n : ℕ) (A : ℕ → ℕ → ℚ) (b : ℕ → ℚ) (r1 r2 : ℕ) (x : ℕ → ℚ)
    (hr1 : r1 < n) (hr2 : r2 < n) :
    SolMat n (rowSwap A r1 r2) (vecSwap b r1 r2) x ↔ SolMat n A b x := by
  constructor
  · intro H i hi
    by_cases h1 : i = r1
    · subst h1
      have := H r2 hr2
      rw [Finset.sum_congr rfl (fun j _ => by rw [rowSwap_snd]), vecSwap_snd] at this
      exact this
    · by_cases h2 : i = r2
      · subst h2
        have := H r1 hr1
        rw [Finset.sum_congr rfl (fun j _ => by rw [rowSwap_fst]), vecSwap_fst] at this
        exact this
      · have := H i hi
        rw [Finset.sum_congr rfl (fun j _ => by rw [rowSwap_other A r1 r2 i j h1 h2]),
          vecSwap_other b r1 r2 i h1 h2] at this
        exact this
  · intro H i hi
    by_cases h1 : i = r1
    · subst h1
      rw [Finset.sum_congr rfl (fun j _ => by rw [rowSwap_fst]), vecSwap_fst]
      exact H r2 hr2
    · by_cases h2 : i = r2
      · subst h2
        rw [Finset.sum_congr rfl (fun j _ => by rw [rowSwap_snd]), vecSwap_snd]
        exact H r1 hr1
      · rw [Finset.sum_congr rfl (fun j _ => by rw [rowSwap_other A r1 r2 i j h1 h2]),
          vecSwap_other b r1 r2 i h1 h2]
        exact H i hi

/-- Scaling a row by a nonzero factor preserves the solution set. -/
theorem solMat_rowScale (n : ℕ) (A : ℕ → ℕ → ℚ) (b : ℕ → ℚ) (k : ℕ) (c : ℚ) (x : ℕ → ℚ)
    (hc : c ≠ 0) :
    SolMat n (rowScale A k c) (vecScale b k c) x ↔ SolMat n A b x := by
  have hrow : ∀ i, i ≠ k → ∀ j, rowScale A k c i j = A i j := by
    intro i hik j
    unfold rowScale
    rw [if_neg hik]
  have hvec : ∀ i, i ≠ k → vecScale b k c i = b i := by
    intro i hik
    unfold vecScale
    rw [if_neg hik]
  have hrowk : ∀ j, rowScale A k c k j = c * A k j := by
    intro j
    unfold rowScale
    rw [if_pos rfl]
  have hveck : vecScale b k c k = c * b k := by
    unfold vecScale
    rw [if_pos rfl]
  have hsum : ∀ i, (Finset.range n).sum (fun j => c * A i j * x j)
      = c * (Finset.range n).sum (fun j => A i j * x j) := by
    intro i
    rw [Finset.mul_sum]
    exact Finset.sum_congr rfl (fun j _ => by ring)
  constructor
  · intro H i hi
    by_cases hik : i = k
    · subst hik
      have hscaled := H i hi
      rw [Finset.sum_congr rfl (fun j _ => by rw [hrowk]), hveck, hsum i] at hscaled
      exact mul_left_cancel₀ hc hscaled
    · have := H i hi
      rw [Finset.sum_congr rfl (fun j _ => by rw [hrow i hik]), hvec i hik] at this
      exact this
  · intro H i hi
    by_cases hik : i = k
    · subst hik
      rw [Finset.sum_congr rfl (fun j _ => by rw [hrowk]), hveck, hsum i, H i hi]
    · rw [Finset.sum_congr rfl (fun j _ => by rw [hrow i hik]), hvec i hik]
      exact H i hi

/-- Subtracting a multiple of another row preserves the solution set. -/
theorem solMat_rowElim (n : ℕ) (A : ℕ → ℕ → ℚ) (b : ℕ → ℚ) (i k : ℕ) (c : ℚ) (x : ℕ → ℚ)
    (hik : i ≠ k) (hi : i < n) (hk : k < n) :
    SolMat n (rowElim A i k c) (vecElim b i k c) x ↔ SolMat n A b x := by
  have hrow : ∀ i2, i2 ≠ i → ∀ j, rowElim A i k c i2 j = A i2 j := by
    intro i2 hi2 j
    unfold rowElim
    rw [if_neg hi2]
  have hvec : ∀ i2, i2 ≠ i → vecElim b i k c i2 = b i2 := by
    intro i2 hi2
    unfold vecElim
    rw [if_neg hi2]
  have hrowi : ∀ j, rowElim A i k c i j = A i j - c * A k j := by
    intro j
    unfold rowElim
    rw [if_pos rfl]
  have hveci : vecElim b i k c i = b i - c * b k := by
    unfold vecElim
    rw [if_pos rfl]
  have hexp : (Finset.range n).sum (fun j => (A i j - c * A k j) * x j)
      = (Finset.range n).sum (fun j => A i j * x j)
        - c * (Finset.range n).sum (fun j => A k j * x j) := by
    rw [Finset.mul_sum, ← Finset.sum_sub_distrib]
    exact Finset.sum_congr rfl (fun j _ => by ring)
  constructor
  · intro H i2 hi2
    by_cases hii : i2 = i
    · subst hii
      have hrowk := H k hk
      rw [Finset.sum_congr rfl (fun j _ => by rw [hrow k (Ne.symm hik)]),
        hvec k (Ne.symm hik)] at hrowk
      have := H i2 hi2
      rw [Finset.sum_congr rfl (fun j _ => by rw [hrowi]), hveci, hexp, hrowk] at this
      have := congrArg (fun y => y + c * b k) this
      simpa using this
    · have := H i2 hi2
      rw [Finset.sum_congr rfl (fun j _ => by rw [hrow i2 hii]), hvec i2 hii] at this
      exact this
  · intro H i2 hi2
    by_cases hii : i2 = i
    · subst hii
      rw [Finset.sum_congr rfl (fun j _ => by rw [hrowi]), hveci, hexp, H i2 hi2, H k hk]
    · rw [Finset.sum_congr rfl (fun j _ => by rw [hrow i2 hii]), hvec i2 hii]
      exact H i2 hi2

/-- The elimination fold over any list of in-range rows preserves the
solution set. -/
theorem solMat_elimFold (n k : ℕ) (x : ℕ → ℚ) (hk : k < n) :
    ∀ (l : List ℕ), (∀ i ∈ l, i < n) → ∀ (A : ℕ → ℕ → ℚ) (b : ℕ → ℚ),
      SolMat n
        (l.foldl (fun p i => if i = k then p
          else (rowElim p.1 i k (p.1 i k), vecElim p.2 i k (p.1 i k))) (A, b)).1
        (l.foldl (fun p i => if i = k then p
          else (rowElim p.1 i k (p.1 i k), vecElim p.2 i k (p.1 i k))) (A, b)).2 x
      ↔ SolMat n A b x := by
  intro l
  induction l with
  | nil => intro _ A b; exact Iff.rfl
  | cons a tl ih =>
    intro hmem A b
    rw [List.foldl_cons]
    by_cases hak : a = k
    · rw [if_pos hak]
      exact ih (fun i hi => hmem i (List.mem_cons_of_mem a hi)) A b
    · rw [if_neg hak]
      have ha : a < n := hmem a (List.mem_cons_self a tl)
      exact (ih (fun i hi => hmem i (List.mem_cons_of_mem a hi)) _ _).trans
        (solMat_rowElim n A b a k (A a k) x hak ha hk)

/-- `elimOthers` preserves the solution set. -/
theorem solMat_elimOthers (n k : ℕ) (A : ℕ → ℕ → ℚ) (b : ℕ → ℚ) (x : ℕ → ℚ)
    (hk : k < n) :
    SolMat n (elimOthers n k A b).1 (elimOthers n k A b).2 x ↔ SolMat n A b x := by
  unfold elimOthers
  exact solMat_elimFold n k x hk (List.range n) (fun i hi => List.mem_range.mp hi) A b

/-- A successful pivot search returns an in-window row with nonzero entry. -/
theorem findPivot_spec (A : ℕ → ℕ → ℚ) (col : ℕ) :
    ∀ (fuel r p : ℕ), findPivot A col r fuel = some p →
      r ≤ p ∧ p < r + fuel ∧ A p col ≠ 0 := by
  intro fuel
  induction fuel with
  | zero => intro r p h; exact Option.noConfusion h
  | succ f ih =>
    intro r p h
    unfold findPivot at h
    by_cases hnz : A r col ≠ 0
    · rw [if_pos hnz] at h
      have hp := Option.some.inj h
      subst hp
      exact ⟨Nat.le_refl r, by omega, hnz⟩
    · rw [if_neg hnz] at h
      obtain ⟨h1, h2, h3⟩ := ih (r + 1) p h
      exact ⟨by omega, by omega, h3⟩

/-- One pivoting round preserves the solution set when the chosen pivot
entry is nonzero. -/
theorem solMat_pivotStep (n k : ℕ) (A : ℕ → ℕ → ℚ) (b : ℕ → ℚ) (r : ℕ) (x : ℕ → ℚ)
    (hk : k < n) (hr : r < n) (hnz : A r k ≠ 0) :
    SolMat n (pivotStep n k A b r).1 (pivotStep n k A b r).2 x ↔ SolMat n A b x := by
  unfold pivotStep
  have hc : ((rowSwap A k r) k k)⁻¹ ≠ 0 := by
    rw [rowSwap_fst]
    exact inv_ne_zero hnz
  exact (solMat_elimOthers n k _ _ x hk).trans
    ((solMat_rowScale n _ _ k _ x hc).trans (solMat_rowSwap n A b k r x hk hr))

/-- The main elimination loop preserves the solution set. -/
theorem solMat_elimLoop (n : ℕ) (x : ℕ → ℚ) :
    ∀ (fuel k : ℕ) (A : ℕ → ℕ → ℚ) (b : ℕ → ℚ) (A2 : ℕ → ℕ → ℚ) (b2 : ℕ → ℚ),
      k + fuel ≤ n → elimLoop n fuel k A b = some (A2, b2) →
      (SolMat n A2 b2 x ↔ SolMat n A b x) := by
  intro fuel
  induction fuel with
  | zero =>
    intro k A b A2 b2 _ h
    unfold elimLoop at h
    have h2 := Option.some.inj h
    rw [Prod.mk.injEq] at h2
    rw [← h2.1, ← h2.2]
  | succ f ih =>
    intro k A b A2 b2 hle h
    unfold elimLoop at h
    cases hfp : findPivot A k k (n - k) with
    | none => rw [hfp] at h; exact Option.noConfusion h
    | some r =>
      rw [hfp] at h
      obtain ⟨hr1, hr2, hnz⟩ := findPivot_spec A k (n - k) k r hfp
      have hk : k < n := by omega
      have hrn : r < n := by omega
      exact (ih (k + 1) _ _ A2 b2 (by omega) h).trans
        (solMat_pivotStep n k A b r x hk hrn hnz)

/-- The identity system is solved by its right-hand side. -/
theorem solMat_idMat (n : ℕ) (b : ℕ → ℚ) : SolMat n idMat b b := by
  intro i hi
  unfold idMat
  rw [Finset.sum_congr rfl (fun j _ => ite_mul (i = j) (1 : ℚ) 0 (b j))]
  simp only [one_mul, zero_mul]
  rw [Finset.sum_ite_eq (Finset.range n) i b, if_pos (Finset.mem_range.mpr hi)]

/-- Correctness of the elimination solver: a returned vector solves the
input system. -/
theorem gaussSolve_correct (n : ℕ) (A : ℕ → ℕ → ℚ) (b x : ℕ → ℚ)
    (h : gaussSolve n A b = some x) : SolMat n A b x := by
  unfold gaussSolve at h
  cases hel : elimLoop n n 0 A b with
  | none => rw [hel] at h; exact Option.noConfusion h
  | some p =>
    rw [hel] at h
    change (if ∀ i, i < n → ∀ j, j < n → p.1 i j = idMat i j then some p.2 else none)
      = some x at h
    by_cases hid : ∀ i, i < n → ∀ j, j < n → p.1 i j = idMat i j
    · rw [if_pos hid] at h
      have hx : p.2 = x := Option.some.inj h
      have hiff := solMat_elimLoop n x n 0 A b p.1 p.2 (by omega) (by rw [hel])
      refine hiff.mp ?_
      intro i hi
      rw [Finset.sum_congr rfl (fun j hj => by
        rw [hid i hi j (Finset.mem_range.mp hj)])]
      have := solMat_idMat n x i hi
      rw [this, hx]
    · rw [if_neg hid] at h
      exact Option.noConfusion h

/-- A fold whose step fixes the accumulator returns it unchanged. -/
theorem list_foldl_fixed {α β : Type} (f : α → β → α) (init : α) :
    ∀ l : List β, (∀ i ∈ l, f init i = init) → l.foldl f init = init := by
  intro l
  induction l with
  | nil => intro _; rfl
  | cons a tl ih =>
    intro hfix
    rw [List.foldl_cons, hfix a (List.mem_cons_self a tl)]
    exact ih (fun i hi => hfix i (List.mem_cons_of_mem a hi))

/-- Swapping a row with itself changes nothing. -/
theorem rowSwap_self (A : ℕ → ℕ → ℚ) (k : ℕ) : rowSwap A k k = A := by
  funext i j
  unfold rowSwap
  by_cases h : i = k
  · rw [if_pos h, h]
  · rw [if_neg h, if_neg h]

/-- Swapping an entry with itself changes nothing. -/
theorem vecSwap_self (b : ℕ → ℚ) (k : ℕ) : vecSwap b k k = b := by
  funext i
  unfold vecSwap
  by_cases h : i = k
  · rw [if_pos h, h]
  · rw [if_neg h, if_neg h]

/-- Scaling a row by 1 changes nothing. -/
theorem rowScale_one (A : ℕ → ℕ → ℚ) (k : ℕ) : rowScale A k 1 = A := by
  funext i j
  unfold rowScale
  by_cases h : i = k
  · rw [if_pos h, one_mul]
  · rw [if_neg h]

/-- Scaling an entry by 1 changes nothing. -/
theorem vecScale_one (b : ℕ → ℚ) (k : ℕ) : vecScale b k 1 = b := by
  funext i
  unfold vecScale
  by_cases h : i = k
  · rw [if_pos h, one_mul]
  · rw [if_neg h]

/-- Eliminating with coefficient 0 changes nothing. -/
theorem rowElim_zero (A : ℕ → ℕ → ℚ) (i k : ℕ) : rowElim A i k 0 = A := by
  funext i2 j
  unfold rowElim
  by_cases h : i2 = i
  · rw [if_pos h, zero_mul, sub_zero, h]
  · rw [if_neg h]

/-- Eliminating an entry with coefficient 0 changes nothing. -/
theorem vecElim_zero (b : ℕ → ℚ) (i k : ℕ) : vecElim b i k 0 = b := by
  funext i2
  unfold vecElim
  by_cases h : i2 = i
  · rw [if_pos h, zero_mul, sub_zero, h]
  · rw [if_neg h]

/-- Diagonal of the identity matrix. -/
theorem idMat_diag (k : ℕ) : idMat k k = 1 := by
  unfold idMat
  rw [if_pos rfl]

/-- Off-diagonal of the identity matrix. -/
theorem idMat_off (i k : ℕ) (h : i ≠ k) : idMat i k = 0 := by
  unfold idMat
  rw [if_neg h]

/-- Elimination leaves the identity system unchanged. -/
theorem elimOthers_idMat (n k : ℕ) (b : ℕ → ℚ) : elimOthers n k idMat b = (idMat, b) := by
  unfold elimOthers
  apply list_foldl_fixed
  intro i _
  by_cases hik : i = k
  · rw [if_pos hik]
  · rw [if_neg hik]
    show (rowElim idMat i k (idMat i k), vecElim b i k (idMat i k)) = (idMat, b)
    rw [idMat_off i k hik, rowElim_zero, vecElim_zero]

/-- The pivot search on the identity matrix finds the diagonal at once. -/
theorem findPivot_idMat (k fuel : ℕ) : findPivot idMat k k (fuel + 1) = some k := by
  unfold findPivot
  rw [if_pos]
  rw [idMat_diag]
  exact one_ne_zero

/-- A pivoting round leaves the identity system unchanged. -/
theorem pivotStep_idMat (n k : ℕ) (b : ℕ → ℚ) : pivotStep n k idMat b k = (idMat, b) := by
  unfold pivotStep
  rw [rowSwap_self, vecSwap_self, idMat_diag, inv_one, rowScale_one, vecScale_one,
    elimOthers_idMat]

/-- The elimination loop leaves the identity system unchanged. -/
theorem elimLoop_idMat (n : ℕ) (b : ℕ → ℚ) :
    ∀ (fuel k : ℕ), k + fuel ≤ n → elimLoop n fuel k idMat b = some (idMat, b) := by
  intro fuel
  induction fuel with
  | zero => intro k _; rfl
  | succ f ih =>
    intro k h
    unfold elimLoop
    have hfuel : n - k = (n - k - 1) + 1 := by omega
    rw [hfuel, findPivot_idMat k (n - k - 1)]
    show elimLoop n f (k + 1) (pivotStep n k idMat b k).1 (pivotStep n k idMat b k).2
      = some (idMat, b)
    rw [pivotStep_idMat]
    exact ih (k + 1) (by omega)

/-- The solver returns the right-hand side unchanged on the identity
system. -/
theorem gaussSolve_idMat (n : ℕ) (b : ℕ → ℚ) : gaussSolve n idMat b = some b := by
  unfold gaussSolve
  rw [elimLoop_idMat n b n 0 (by omega)]
  show (if ∀ i, i < n → ∀ j, j < n → (idMat, b).1 i j = idMat i j
    then some (idMat, b).2 else none) = some b
  rw [if_pos (fun i _ j _ => rfl)]

/-- Length of the dense expansion. -/
theorem probabilities_vector_length (t : Transition) (n : ℕ) :
    (t.probabilities_vector n).length = n := by
  unfold Transition.probabilities_vector
  rw [List.length_map, List.length_range]

/-- Reading a length-n list back by `getD` over the range reproduces it. -/
theorem list_map_range_getD {α : Type} (l : List α) (n : ℕ) (d : α) (hlen : l.length = n) :
    (List.range n).map (fun i => l.getD i d) = l := by
  apply List.ext_getElem
  · rw [List.length_map, List.length_range, hlen]
  · intro i h1 h2
    rw [List.getElem_map, List.getElem_range]
    exact List.getD_eq_getElem l d h2

/-- A correct policy pair always lets the transposed builder succeed. -/
theorem transition_mat_t_isSome_of_correct (m : GRMDP) (pol natp : ℕ → ℤ)
    (hc : m.correct_pair pol natp) :
    (m.transition_mat_t pol natp).isSome = true := by
  have hcond : ∀ s, s < m.state_count → (m.states.getD s ⟨[]⟩).is_terminal ≠ true →
      (m.row_result pol natp s).isSome = true := by
    intro s hs hterm
    rw [GRMDP.row_result]
    apply State.mean_transition_isSome_of_correct
    apply hc s hs
    cases hb : (m.states.getD s ⟨[]⟩).is_terminal with
    | false => rfl
    | true => exact absurd hb hterm
  unfold GRMDP.transition_mat_t
  rw [dif_pos hcond]
  rfl

/-- C3 (claim): for a correct policy pair, any vector returned by
`ofreq_mat(init, discount, policy, nature)` solves the linear system
`(I - discount * P_transposed) x = dense init`; with discount 0 the
returned vector is exactly the dense initial distribution. -/
theorem ofreq_mat_c3 (m : GRMDP) (init : Transition) (discount : ℚ)
    (pol natp : ℕ → ℤ) (hc : m.correct_pair pol natp) :
    (∀ xs, m.ofreq_mat init discount pol natp = some xs →
      xs.length = m.state_count
      ∧ ∀ i, i < m.state_count →
          (Finset.range m.state_count).sum (fun j =>
            ((if i = j then (1 : ℚ) else 0)
              - discount * (m.transition_mat_t pol natp).getD zeroMat i j)
            * xs.getD j 0)
          = (init.probabilities_vector m.state_count).getD i 0)
    ∧ (discount = 0 →
        m.ofreq_mat init discount pol natp
          = some (init.probabilities_vector m.state_count)) := by
  obtain ⟨tmat, htm⟩ := Option.isSome_iff_exists.mp
    (transition_mat_t_isSome_of_correct m pol natp hc)
  constructor
  · intro xs hx
    unfold GRMDP.ofreq_mat at hx
    rw [htm] at hx
    change (match gaussSolve m.state_count
        (fun i j => (if i = j then (1 : ℚ) else 0) - discount * tmat i j)
        (fun i => (init.probabilities_vector m.state_count).getD i 0) with
      | none => none
      | some x => some ((List.range m.state_count).map x)) = some xs at hx
    cases hg : gaussSolve m.state_count
        (fun i j => (if i = j then (1 : ℚ) else 0) - discount * tmat i j)
        (fun i => (init.probabilities_vector m.state_count).getD i 0) with
    | none => rw [hg] at hx; exact Option.noConfusion hx
    | some x =>
      rw [hg] at hx
      have hxs : xs = (List.range m.state_count).map x := (Option.some.inj hx).symm
      have hsol := gaussSolve_correct _ _ _ _ hg
      constructor
      · rw [hxs, List.length_map, List.length_range]
      · intro i hi
        simp only [htm, Option.getD_some]
        rw [Finset.sum_congr rfl (fun j hj => by
          rw [hxs, list_getD_map_range m.state_count x j (Finset.mem_range.mp hj) (0 : ℚ)])]
        exact hsol i hi
  · intro h0
    subst h0
    have hA : (fun i j => (if i = j then (1 : ℚ) else 0) - 0 * tmat i j) = idMat := by
      funext i j
      rw [zero_mul, sub_zero]
      rfl
    unfold GRMDP.ofreq_mat
    rw [htm]
    change (match gaussSolve m.state_count
        (fun i j => (if i = j then (1 : ℚ) else 0) - 0 * tmat i j)
        (fun i => (init.probabilities_vector m.state_count).getD i 0) with
      | none => none
      | some x => some ((List.range m.state_count).map x))
      = some (init.probabilities_vector m.state_count)
    rw [hA, gaussSolve_idMat]
    show some ((List.range m.state_count).map
        (fun i => (init.probabilities_vector m.state_count).getD i 0))
      = some (init.probabilities_vector m.state_count)
    exact congrArg some
      (list_map_range_getD _ _ 0 (probabilities_vector_length init _))

/-- Witness for C3 on the one-state self-loop table with discount 0: the
occupancy solve returns the dense initial distribution. -/
theorem ofreq_mat_c3_witness :
    mOne.correct_pair zpol zpol
    ∧ mOne.ofreq_mat initDirac 0 zpol zpol
        = some (initDirac.probabilities_vector mOne.state_count) :=
  ⟨by decide, (ofreq_mat_c3 mOne initDirac 0 zpol zpol (by decide)).2 rfl⟩

end Craam
